import Mathlib

/-!
# A verification model of the `io` stream-transfer package

This file gives a shallow embedding, in Lean, of the stream-transfer and
adapter subsystem found in `src/io/io.go`: the buffered copy loop
(`copyBuffer`), `CopyN`, `ReadAtLeast`/`ReadFull`, `LimitedReader`,
`SectionReader`, `OffsetWriter.Seek` and `teeReader.Read`, together with
theorems about the behavioural guarantees the package documents.

Modelling conventions:

* A reader is a state machine: `read` takes the current state and the length
  of the buffer handed to it and returns the new state, the bytes produced
  (a `List Nat`; the Go byte count `n` is the length of that list) and the
  error (`Option Err`, `none` being Go's `nil`).  Writers and positional
  readers (`ReaderAt`) are modelled the same way; a writer returns the count
  it claims as an `Int`, because the Go code explicitly guards against
  negative or over-large write counts.
* Go `int64` arithmetic wraps on overflow; wherever the source can overflow
  we compute with `Int` and apply `wrap64` (reduction into
  `[-2^63, 2^63)`), mirroring two's-complement wrap-around.
* The loops of `copyBuffer` and `ReadAtLeast` need not terminate for an
  arbitrary reader (a reader may answer `(0, nil)` forever, and the Go code
  then spins); they are embedded with an explicit fuel argument returning
  `Option`, `none` meaning the iteration bound was exhausted.
* The interface fast paths of `copyBuffer` (`WriterTo` / `ReaderFrom`
  type assertions) apply only to sources and sinks that implement those
  interfaces; the readers and writers modelled here are plain ones, so the
  embedding is the buffered path the assertions fall through to.
  `Copy(dst, LimitReader(src, n))`, as called by `CopyN`, takes that path
  (a `*LimitedReader` implements neither interface), including the
  working-buffer shrink for limited sources.
-/

namespace GoIoModel

/-- The sentinel errors of the package; `other k` stands for an arbitrary
error supplied by an underlying concrete stream. -/
inductive Err where
  | EOF
  | ErrUnexpectedEOF
  | ErrShortWrite
  | errInvalidWrite
  | ErrShortBuffer
  | errWhence
  | errOffset
  | other (k : Nat)
deriving DecidableEq

/-- A reader: from a state and the length of the buffer passed to `Read`,
produce the new state, the bytes read and the error. -/
structure Reader (σ : Type) where
  read : σ → Nat → σ × List Nat × Option Err

/-- A writer: from a state and the bytes handed to `Write`, produce the new
state, the count the writer reports (an `Int`, since Go guards against
negative counts) and the error. -/
structure Writer (σ : Type) where
  write : σ → List Nat → σ × Int × Option Err

/-- A positional reader (`ReaderAt`): from a state, a buffer length and an
offset, produce the new state, the bytes read and the error. -/
structure ReaderAt (σ : Type) where
  readAt : σ → Nat → Int → σ × List Nat × Option Err

/-- The `Read` contract: `0 <= n <= len(p)`; nonnegativity is built into the
list model, so honesty is the upper bound. -/
def Reader.Honest (R : Reader σ) : Prop :=
  ∀ s len, (R.read s len).2.1.length ≤ len

/-- The `Write` contract: `0 <= n <= len(p)` and a short count must carry a
non-nil error. -/
def Writer.Honest (W : Writer σ) : Prop :=
  ∀ s p, 0 ≤ (W.write s p).2.1 ∧ (W.write s p).2.1 ≤ p.length ∧
    ((W.write s p).2.1 < p.length → (W.write s p).2.2 ≠ none)

/-- The `ReadAt` contract: `0 <= n <= len(p)`, and (stricter than `Read`)
`n < len(p)` must carry a non-nil error. -/
def ReaderAt.Honest (ra : ReaderAt σ) : Prop :=
  ∀ s len off, (ra.readAt s len off).2.1.length ≤ len ∧
    ((ra.readAt s len off).2.1.length < len → (ra.readAt s len off).2.2 ≠ none)

/-- `1<<63 - 1`, the largest `int64`. -/
def maxint64 : Int := 9223372036854775807

/-- Two's-complement wrap-around of `int64` arithmetic: reduce into
`[-2^63, 2^63)`. -/
def wrap64 (x : Int) : Int :=
  (x + 9223372036854775808) % 18446744073709551616 - 9223372036854775808

theorem wrap64_eq_self {x : Int} (h1 : -9223372036854775808 ≤ x)
    (h2 : x < 9223372036854775808) : wrap64 x = x := by
  unfold wrap64
  rw [Int.emod_eq_of_lt (by omega) (by omega)]
  omega

/-- `LimitedReader.Read`: state is the pair of the underlying state and the
remaining budget `N`.  If `N <= 0` report `EOF` without touching the
underlying reader; otherwise clip the request to `N`, delegate, and decrement
`N` by the bytes actually returned. -/
def limitReader (R : Reader σ) : Reader (σ × Int) where
  read := fun s len =>
    if s.2 ≤ 0 then (s, [], some Err.EOF)
    else
      let len' := if (len : Int) > s.2 then s.2.toNat else len
      let r := R.read s.1 len'
      ((r.1, s.2 - r.2.1.length), r.2.1, r.2.2)

/-- Instrumentation: wrap a reader so that the state also counts how many
times the underlying reader was invoked. -/
def countingReader (R : Reader σ) : Reader (σ × Nat) where
  read := fun s len =>
    let r := R.read s.1 len
    ((r.1, s.2 + 1), r.2.1, r.2.2)

/-- Run a sequence of `Read` calls with the given buffer lengths; return the
final state and the total number of bytes delivered over the sequence. -/
def runReads (R : Reader σ) : σ → List Nat → σ × Nat
  | s, [] => (s, 0)
  | s, len :: rest =>
    let r := R.read s len
    let t := runReads R r.1 rest
    (t.1, r.2.1.length + t.2)

/-- The guard `copyBuffer` applies to a write result: an impossible count
(negative, or larger than the `nr` bytes handed over) is zeroed and, when
the write reported no error of its own, replaced by the invalid-write
fault. -/
def writeFix (nr : Nat) (nw0 : Int) (ew0 : Option Err) : Int × Option Err :=
  if nw0 < 0 ∨ (nr : Int) < nw0 then
    (0, if ew0 = none then some Err.errInvalidWrite else ew0)
  else (nw0, ew0)

/-- The body of `copyBuffer`'s loop (the buffered path): each iteration reads
up to `bufLen` bytes, writes them, guards the write count through
`writeFix`, and stops on a write fault, on a short write, or on any read
error (`EOF` being reported as success).  `fuel` bounds the number of
iterations; `none` means the bound was exhausted before the loop broke. -/
def copyLoop (R : Reader σr) (W : Writer σw) (bufLen : Nat) :
    Nat → σr → σw → Int → Option (Int × Option Err)
  | 0, _, _, _ => none
  | fuel + 1, sr, sw, written =>
    let r := R.read sr bufLen
    if 0 < r.2.1.length then
      let w := W.write sw r.2.1
      let f := writeFix r.2.1.length w.2.1 w.2.2
      if f.2 ≠ none then some (written + f.1, f.2)
      else if (r.2.1.length : Int) ≠ f.1 then
        some (written + f.1, some Err.ErrShortWrite)
      else if r.2.2 ≠ none then
        some (written + f.1, if r.2.2 = some Err.EOF then none else r.2.2)
      else copyLoop R W bufLen fuel r.1 w.1 (written + f.1)
    else if r.2.2 ≠ none then
      some (written, if r.2.2 = some Err.EOF then none else r.2.2)
    else copyLoop R W bufLen fuel r.1 sw written

/-- The working-buffer size `copyBuffer` picks when handed a
`*LimitedReader` with remaining budget `n`: the default 32 KiB, shrunk to
`n` (at least 1) when the budget is smaller. -/
def copyBufSize (n : Int) : Nat :=
  if 32768 > n then (if n < 1 then 1 else n.toNat) else 32768

/-- `Copy(dst, LimitReader(src, n))` as `CopyN` performs it: the buffered
copy loop over the limited reader, with the shrunk working buffer. -/
def copyLimited (R : Reader σr) (W : Writer σw) (n : Int) (fuel : Nat)
    (sr : σr) (sw : σw) : Option (Int × Option Err) :=
  copyLoop (limitReader R) W (copyBufSize n) fuel (sr, n) sw 0

/-- `CopyN(dst, src, n)`: copy through a limited reader of budget `n`; if
all `n` bytes moved, report success; if fewer moved with no error, the
source must have hit end of stream early, so report `EOF`. -/
def CopyN (R : Reader σr) (W : Writer σw) (n : Int) (fuel : Nat)
    (sr : σr) (sw : σw) : Option (Int × Option Err) :=
  match copyLimited R W n fuel sr sw with
  | none => none
  | some (written, err) =>
    if written = n then some (n, none)
    else if written < n ∧ err = none then some (written, some Err.EOF)
    else some (written, err)

/-- The loop of `ReadAtLeast`: while `n < min` and no error, read into the
unfilled tail of the buffer (of remaining length `bufLen - n`) and
accumulate.  Returns the final reader state, count and error; `none` when
`fuel` iterations did not reach the exit condition. -/
def readAtLeastLoop (R : Reader σ) (bufLen min : Nat) :
    Nat → σ → Nat → Option Err → Option (σ × Nat × Option Err)
  | 0, _, _, _ => none
  | fuel + 1, s, n, err =>
    if n < min ∧ err = none then
      let r := R.read s (bufLen - n)
      readAtLeastLoop R bufLen min fuel r.1 (n + r.2.1.length) r.2.2
    else some (s, n, err)

/-- `ReadAtLeast(r, buf, min)`: fail with `ErrShortBuffer` when the buffer
is shorter than `min`; otherwise loop, then clear the error when at least
`min` bytes arrived, and turn an `EOF` after a partial read into
`ErrUnexpectedEOF`. -/
def ReadAtLeast (R : Reader σ) (bufLen min : Nat) (fuel : Nat) (s : σ) :
    Option (Nat × Option Err) :=
  if bufLen < min then some (0, some Err.ErrShortBuffer)
  else
    match readAtLeastLoop R bufLen min fuel s 0 none with
    | none => none
    | some (_, n, err) =>
      if n ≥ min then some (n, none)
      else if 0 < n ∧ err = some Err.EOF then some (n, some Err.ErrUnexpectedEOF)
      else some (n, err)

/-- `ReadFull(r, buf)` is `ReadAtLeast(r, buf, len(buf))`. -/
def ReadFull (R : Reader σ) (bufLen : Nat) (fuel : Nat) (s : σ) :
    Option (Nat × Option Err) :=
  ReadAtLeast R bufLen bufLen fuel s

/-- The state of a `SectionReader`: the underlying `ReaderAt` state, the
immutable base, the cursor, and the limit (one past the last readable
absolute offset). -/
structure SRSt (σ : Type) where
  s : σ
  base : Int
  off : Int
  limit : Int

/-- The `limit` field computed by `NewSectionReader(r, off, n)`: `off + n`,
clamped to `maxint64` when that sum overflows `int64`.  Both the guard
`off <= maxint64 - n` and the sum are `int64` arithmetic, hence wrapped. -/
def mkLimit (off n : Int) : Int :=
  if off ≤ wrap64 (maxint64 - n) then wrap64 (n + off) else maxint64

/-- `NewSectionReader(r, off, n)`: base and cursor start at `off`, with the
overflow-clamped limit. -/
def newSRSt (s : σ) (off n : Int) : SRSt σ :=
  { s := s, base := off, off := off, limit := mkLimit off n }

/-- `SectionReader.Size`: `limit - base`. -/
def srSize (st : SRSt σ) : Int := wrap64 (st.limit - st.base)

/-- `SectionReader.Read`: `EOF` once the cursor reached the limit; otherwise
clip the buffer to the bytes left in the section, read positionally at the
cursor and advance it.  The third component records the positional read
issued to the underlying reader, as `(offset, length)`. -/
def srRead (ra : ReaderAt σ) (st : SRSt σ) (len : Nat) :
    SRSt σ × (List Nat × Option Err) × List (Int × Nat) :=
  if st.off ≥ st.limit then (st, ([], some Err.EOF), [])
  else
    let maxi := wrap64 (st.limit - st.off)
    let len' := if (len : Int) > maxi then maxi.toNat else len
    let r := ra.readAt st.s len' st.off
    ({ st with s := r.1, off := wrap64 (st.off + r.2.1.length) },
     (r.2.1, r.2.2), [(st.off, len')])

/-- The common tail of the seek methods: reject a resolved offset below
`base`, otherwise install it as the cursor and return it rebased.  Returns
`(new cursor, result, error)`. -/
def seekTo (base cur o : Int) : Int × Int × Option Err :=
  if o < base then (cur, 0, some Err.errOffset)
  else (o, wrap64 (o - base), none)

/-- `SectionReader.Seek` as a pure function of `(base, cursor, limit)`:
resolve `whence` against base, cursor or limit, then `seekTo`. -/
def srSeekP (base cur limit offset : Int) (whence : Nat) : Int × Int × Option Err :=
  if whence = 0 then seekTo base cur (wrap64 (offset + base))
  else if whence = 1 then seekTo base cur (wrap64 (offset + cur))
  else if whence = 2 then seekTo base cur (wrap64 (offset + limit))
  else (cur, 0, some Err.errWhence)

/-- `SectionReader.Seek` acting on the reader state. -/
def srSeek (st : SRSt σ) (offset : Int) (whence : Nat) :
    SRSt σ × Int × Option Err :=
  let r := srSeekP st.base st.off st.limit offset whence
  ({ st with off := r.1 }, r.2)

/-- `OffsetWriter.Seek` as a pure function of `(base, cursor)`: like the
section reader's seek, but there is no `SeekEnd` case (a writer has no known
end), so `whence = 2` falls into the default branch and is rejected with
`errWhence`. -/
def owSeek (base cur offset : Int) (whence : Nat) : Int × Int × Option Err :=
  if whence = 0 then seekTo base cur (wrap64 (offset + base))
  else if whence = 1 then seekTo base cur (wrap64 (offset + cur))
  else (cur, 0, some Err.errWhence)

/-- `SectionReader.ReadAt(p, off)`: reject a negative or out-of-section
offset with `EOF`; rebase the offset; when the request crosses the section
boundary, clip it and force `EOF` onto an otherwise error-free result.  The
third component records the positional read issued to the underlying
reader. -/
def srReadAt (ra : ReaderAt σ) (st : SRSt σ) (len : Nat) (off : Int) :
    SRSt σ × (List Nat × Option Err) × List (Int × Nat) :=
  if off < 0 ∨ off ≥ wrap64 (st.limit - st.base) then (st, ([], some Err.EOF), [])
  else
    let off' := wrap64 (off + st.base)
    let maxi := wrap64 (st.limit - off')
    if (len : Int) > maxi then
      let r := ra.readAt st.s maxi.toNat off'
      ({ st with s := r.1 },
       (r.2.1, if r.2.2 = none then some Err.EOF else r.2.2),
       [(off', maxi.toNat)])
    else
      let r := ra.readAt st.s len off'
      ({ st with s := r.1 }, (r.2.1, r.2.2), [(off', len)])

/-- One client-visible operation on a `SectionReader`. -/
inductive SROp where
  | read (len : Nat)
  | seekOp (offset : Int) (whence : Nat)
  | readAt (len : Nat) (off : Int)

/-- Apply one operation; return the new state and the positional reads it
issued to the underlying reader. -/
def srStep (ra : ReaderAt σ) (st : SRSt σ) : SROp → SRSt σ × List (Int × Nat)
  | .read len => let r := srRead ra st len; (r.1, r.2.2)
  | .seekOp offset whence => ((srSeek st offset whence).1, [])
  | .readAt len off => let r := srReadAt ra st len off; (r.1, r.2.2)

/-- Apply a sequence of operations, collecting every positional read issued
to the underlying reader along the way. -/
def srRun (ra : ReaderAt σ) : SRSt σ → List SROp → SRSt σ × List (Int × Nat)
  | st, [] => (st, [])
  | st, op :: ops =>
    let r := srStep ra st op
    let rest := srRun ra r.1 ops
    (rest.1, r.2 ++ rest.2)

/-- Instrumentation: wrap a `ReaderAt` so that the state also counts how
many times the underlying reader was invoked. -/
def countingReaderAt (ra : ReaderAt σ) : ReaderAt (σ × Nat) where
  readAt := fun s len off =>
    let r := ra.readAt s.1 len off
    ((r.1, s.2 + 1), r.2.1, r.2.2)

/-- `teeReader.Read`: read, then hand every byte read to the side writer.
On a side-write error the call returns the *write's* count and error (the
inner `n, err :=` in the Go source shadows the outer pair); in the list
model the returned bytes are the first `nw` bytes read.  Otherwise the
read's bytes and error are returned unchanged. -/
def teeRead (R : Reader σr) (W : Writer σw) (s : σr × σw) (len : Nat) :
    (σr × σw) × List Nat × Option Err :=
  let r := R.read s.1 len
  if 0 < r.2.1.length then
    let w := W.write s.2 r.2.1
    if w.2.2 ≠ none then ((r.1, w.1), r.2.1.take w.2.1.toNat, w.2.2)
    else ((r.1, w.1), r.2.1, r.2.2)
  else ((r.1, s.2), r.2.1, r.2.2)

/-- Instrumentation: wrap a writer so that the state also logs each slice of
bytes handed to `Write`, in order. -/
def recWriter (W : Writer σ) : Writer (σ × List (List Nat)) where
  write := fun s p =>
    let w := W.write s.1 p
    ((w.1, s.2 ++ [p]), w.2.1, w.2.2)

/-- A concrete in-memory reader: the state is the list of bytes still to be
delivered; `Read` hands out a prefix of it and reports `EOF` once the data
was already exhausted when the call arrived. -/
def byteReader : Reader (List Nat) where
  read := fun s len =>
    (s.drop len, s.take len, if s.isEmpty then some Err.EOF else none)

/-- A concrete sink that accepts everything it is handed. -/
def accWriter : Writer (List Nat) where
  write := fun s p => (s ++ p, (p.length : Int), none)

/-- A writer that always claims to have written one byte fewer than it was
handed, with no error (the faulty destination of the short-write test). -/
def shortWriter : Writer Unit where
  write := fun s p => (s, (p.length : Int) - 1, none)

/-- A reader that always produces three bytes (clipped to the buffer). -/
def threeReader : Reader Unit where
  read := fun s len => (s, List.replicate (min 3 len) 7, none)

/-- A writer that reports one byte written together with an error. -/
def oneFailWriter : Writer Unit where
  write := fun s _ => (s, 1, some (Err.other 0))

/-- A concrete positional reader that fills any request with zero bytes. -/
def zeroReaderAt : ReaderAt Unit where
  readAt := fun s len _ => (s, List.replicate len 0, none)

/-- The invariant a section reader's immutable bounds enjoy after
construction with in-range arguments: they fit in `int64` and the section
span fits in `int64` as well. -/
def SecOk (base limit : Int) : Prop :=
  -9223372036854775808 ≤ base ∧ base ≤ limit ∧ limit ≤ maxint64 ∧
    limit - base ≤ maxint64

theorem byteReader_honest : byteReader.Honest := by
  intro s len
  simp [byteReader, Reader.Honest]

theorem accWriter_honest : accWriter.Honest := by
  intro s p
  refine ⟨by simp [accWriter], by simp [accWriter], fun h => absurd h (by simp [accWriter])⟩

theorem threeReader_honest : threeReader.Honest := by
  intro s len
  simp [threeReader, Reader.Honest]

theorem zeroReaderAt_honest : zeroReaderAt.Honest := by
  intro s len off
  refine ⟨by simp [zeroReaderAt], fun h => absurd h (by simp [zeroReaderAt])⟩

/-- Claim C9 (amended): `OffsetWriter.Seek` agrees with `SectionReader.Seek`
for `whence = start` and `whence = current` (same resolution against base
and cursor, same below-base rejection, same rebased result, and neither has
an upper-bound check), but it has no `whence = end` case: the end selector
falls into the default branch and is rejected with the invalid-whence
fault. -/
theorem offsetWriter_seek_like_section (base cur limit offset : Int) :
    owSeek base cur offset 0 = srSeekP base cur limit offset 0 ∧
    owSeek base cur offset 1 = srSeekP base cur limit offset 1 ∧
    owSeek base cur offset 2 = (cur, 0, some Err.errWhence) ∧
    (∀ o : Int, base ≤ o → seekTo base cur o = (o, wrap64 (o - base), none)) := by
  refine ⟨rfl, rfl, rfl, fun o ho => ?_⟩
  simp [seekTo, not_lt.mpr ho]

/-- Claim C9 (amended), witness: base 0, cursor 7, a seek of 4 for each
whence value, and acceptance of the in-range resolved offset 5. -/
theorem offsetWriter_seek_like_section_witness :
    owSeek 0 7 4 0 = srSeekP 0 7 10 4 0 ∧
    owSeek 0 7 4 1 = srSeekP 0 7 10 4 1 ∧
    owSeek 0 7 4 2 = (7, 0, some Err.errWhence) ∧
    ((0 : Int) ≤ 5 → seekTo 0 7 5 = (5, wrap64 (5 - 0), none)) :=
  ⟨(offsetWriter_seek_like_section 0 7 10 4).1,
   (offsetWriter_seek_like_section 0 7 10 4).2.1,
   (offsetWriter_seek_like_section 0 7 10 4).2.2.1,
   fun h => (offsetWriter_seek_like_section 0 7 10 4).2.2.2 5 h⟩

/-- Claim C9, counterexample to the claim as stated: `SectionReader.Seek`
resolves `whence = end` against the limit and succeeds, while
`OffsetWriter.Seek(0, end)` returns the invalid-whence fault instead of
resolving the offset against any end. -/
theorem offsetWriter_seek_end_cex :
    owSeek 0 0 0 2 = (0, 0, some Err.errWhence) ∧
    srSeekP 0 0 10 0 2 = (10, 10, none) := by
  constructor
  · rfl
  · simp [srSeekP, seekTo, wrap64]

/-- Claim C10: when `off + n` overflows `int64` (both nonnegative, both
representable), `NewSectionReader` clamps the limit to `2^63 - 1` instead of
wrapping around, so the constructed reader has `limit >= base` and a
nonnegative `Size`. -/
theorem newSectionReader_overflow_clamp (s : σ) (off n : Int)
    (h1 : 0 ≤ off) (h2 : off ≤ maxint64) (h3 : 0 ≤ n) (h4 : n ≤ maxint64)
    (hov : maxint64 < off + n) :
    (newSRSt s off n).limit = maxint64 ∧
    (newSRSt s off n).base ≤ (newSRSt s off n).limit ∧
    0 ≤ srSize (newSRSt s off n) := by
  have hml : wrap64 (maxint64 - n) = maxint64 - n := by
    apply wrap64_eq_self <;> simp only [maxint64] at h3 h4 ⊢ <;> omega
  have hcond : ¬ off ≤ wrap64 (maxint64 - n) := by
    rw [hml]; simp only [maxint64] at hov ⊢; omega
  have hlim : (newSRSt s off n).limit = maxint64 := by
    simp only [newSRSt, mkLimit, if_neg hcond]
  refine ⟨hlim, ?_, ?_⟩
  · simp only [newSRSt] at hlim ⊢
    rw [hlim]; exact h2
  · simp only [srSize, newSRSt] at hlim ⊢
    rw [hlim]
    have : wrap64 (maxint64 - off) = maxint64 - off := by
      apply wrap64_eq_self <;> simp only [maxint64] at h1 h2 ⊢ <;> omega
    rw [this]; omega

/-- Claim C10, witness at `off = 2`, `n = maxint64`. -/
theorem newSectionReader_overflow_clamp_witness :
    (0 ≤ (2 : Int) ∧ (2 : Int) ≤ maxint64 ∧ 0 ≤ maxint64 ∧
      maxint64 ≤ maxint64 ∧ maxint64 < 2 + maxint64) ∧
    ((newSRSt () 2 maxint64).limit = maxint64 ∧
     (newSRSt () 2 maxint64).base ≤ (newSRSt () 2 maxint64).limit ∧
     0 ≤ srSize (newSRSt () 2 maxint64)) :=
  ⟨⟨by decide, by decide, by decide, le_refl _, by decide⟩,
   newSectionReader_overflow_clamp () 2 maxint64 (by decide) (by decide)
     (by decide) (le_refl _) (by decide)⟩

/-- Claim C3: against a destination that always reports one byte fewer than
handed to it with no error, the buffered copy loop stops with
`ErrShortWrite` right after the first read that produced any bytes,
returning the count it accumulated (one less than that read). -/
theorem copyLoop_short_write (R : Reader σ) (sr : σ) (bufLen fuel : Nat)
    (h : 1 ≤ (R.read sr bufLen).2.1.length) :
    copyLoop R shortWriter bufLen (fuel + 1) sr () 0 =
      some (((R.read sr bufLen).2.1.length : Int) - 1, some Err.ErrShortWrite) := by
  have hd := h
  rcases hE : R.read sr bufLen with ⟨st', d, er⟩
  dsimp only at hd ⊢
  simp only [copyLoop, shortWriter, writeFix]
  rw [hE]
  dsimp only
  split_ifs <;> first
    | omega
    | simp_all

/-- Claim C3, witness: a three-byte source read through a two-byte buffer
stops immediately with `ErrShortWrite` and count 1. -/
theorem copyLoop_short_write_witness :
    1 ≤ (byteReader.read [5, 5, 5] 2).2.1.length ∧
    copyLoop byteReader shortWriter 2 (0 + 1) [5, 5, 5] () 0 =
      some (((byteReader.read [5, 5, 5] 2).2.1.length : Int) - 1,
        some Err.ErrShortWrite) :=
  ⟨by decide, copyLoop_short_write byteReader [5, 5, 5] 2 0 (by decide)⟩

/-- Claim C2 (amended): `CopyN` is the copy through a limited reader of
budget `n` followed by the source's fix-up of the result, and when that copy
moved fewer than `n` bytes with no other error, `CopyN` reports the graceful
end-of-stream sentinel `EOF` — not the premature-end-of-stream sentinel
`ErrUnexpectedEOF`. -/
theorem copyN_limited_short_eof (R : Reader σr) (W : Writer σw) (n : Int)
    (fuel : Nat) (sr : σr) (sw : σw) (w : Int) (e : Option Err)
    (h : copyLimited R W n fuel sr sw = some (w, e)) :
    CopyN R W n fuel sr sw =
      some (if w = n then ((n : Int), (none : Option Err))
            else if w < n ∧ e = none then (w, some Err.EOF)
            else (w, e)) ∧
    (w < n → e = none → CopyN R W n fuel sr sw = some (w, some Err.EOF)) := by
  constructor
  · unfold CopyN
    rw [h]
    by_cases h1 : w = n
    · simp [h1]
    · by_cases h2 : w < n ∧ e = none
      · simp [h1, h2]
      · simp [h1, h2]
  · intro hw he
    unfold CopyN
    rw [h]
    dsimp only
    rw [if_neg (by omega), if_pos ⟨hw, he⟩]

/-- Claim C2 (amended), witness: a one-byte source under `CopyN(…, 3)`
yields `(1, EOF)`. -/
theorem copyN_limited_short_eof_witness :
    copyLimited byteReader accWriter 3 5 [0] [] = some (1, none) ∧
    ((1 : Int) < 3 → (none : Option Err) = none →
      CopyN byteReader accWriter 3 5 [0] [] = some (1, some Err.EOF)) :=
  ⟨by decide,
   (copyN_limited_short_eof byteReader accWriter 3 5 [0] [] 1 none (by decide)).2⟩

/-- Claim C2, counterexample to the claim as stated: the one-byte source
copied with `CopyN(…, 3)` ends early with no other error, and the error
reported is `EOF`, the graceful sentinel — not `ErrUnexpectedEOF` as the
claim asserts. -/
theorem copyN_eof_sentinel_cex :
    CopyN byteReader accWriter 3 5 [0] [] = some (1, some Err.EOF) ∧
    some Err.EOF ≠ some Err.ErrUnexpectedEOF :=
  ⟨by decide, by decide⟩

theorem limitRead_nonpos (R : Reader σ) (s : σ) (N : Int) (len : Nat)
    (h : N ≤ 0) :
    (limitReader R).read (s, N) len = ((s, N), [], some Err.EOF) := by
  simp [limitReader, if_pos h]

theorem limitRead_pos (R : Reader σ) (s : σ) (N : Int) (len : Nat)
    (h : ¬ N ≤ 0) :
    (limitReader R).read (s, N) len =
      (((R.read s (if (len : Int) > N then N.toNat else len)).1,
        N - (R.read s (if (len : Int) > N then N.toNat else len)).2.1.length),
       (R.read s (if (len : Int) > N then N.toNat else len)).2.1,
       (R.read s (if (len : Int) > N then N.toNat else len)).2.2) := by
  simp [limitReader, if_neg h]

theorem limitReader_total_le (R : Reader σ) (hR : R.Honest) :
    ∀ (reqs : List Nat) (s : σ) (N : Int),
      (runReads (limitReader R) (s, N) reqs).2 ≤ N.toNat := by
  intro reqs
  induction reqs with
  | nil => intro s N; simp [runReads]
  | cons len rest ih =>
    intro s N
    by_cases h : N ≤ 0
    · simp only [runReads]
      rw [limitRead_nonpos R s N len h]
      simpa using ih s N
    · simp only [runReads]
      rw [limitRead_pos R s N len h]
      dsimp only
      have hd : (R.read s (if (len : Int) > N then N.toNat else len)).2.1.length ≤
          (if (len : Int) > N then N.toNat else len) := hR s _
      have hdN : ((R.read s (if (len : Int) > N then N.toNat else len)).2.1.length : Int)
          ≤ N := by
        by_cases hc : (len : Int) > N
        · rw [if_pos hc] at hd ⊢; omega
        · rw [if_neg hc] at hd ⊢; push_neg at hc; omega
      have hrest := ih (R.read s (if (len : Int) > N then N.toNat else len)).1
        (N - (R.read s (if (len : Int) > N then N.toNat else len)).2.1.length)
      omega

/-- Claim C5: a limited reader with budget `N` delivers at most `N` bytes in
total over any sequence of reads, and whenever the remaining budget is `<= 0`
a `Read` returns `(0 bytes, EOF)` with the whole state — the invocation
counter of the instrumented underlying reader included — unchanged, and
therefore every subsequent `Read` does the same. -/
theorem limitedReader_budget (R : Reader σ) (hR : R.Honest) :
    (∀ (s : σ) (N : Int) (reqs : List Nat),
      (runReads (limitReader R) (s, N) reqs).2 ≤ N.toNat) ∧
    (∀ (s : σ) (c : Nat) (N : Int) (len : Nat), N ≤ 0 →
      (limitReader (countingReader R)).read ((s, c), N) len =
        (((s, c), N), [], some Err.EOF)) ∧
    (∀ (s : σ) (c : Nat) (N : Int) (reqs : List Nat), N ≤ 0 →
      runReads (limitReader (countingReader R)) ((s, c), N) reqs =
        (((s, c), N), 0)) := by
  refine ⟨fun s N reqs => limitReader_total_le R hR reqs s N, ?_, ?_⟩
  · intro s c N len h
    exact limitRead_nonpos (countingReader R) (s, c) N len h
  · intro s c N reqs h
    induction reqs with
    | nil => simp [runReads]
    | cons len rest ih =>
      simp only [runReads]
      rw [limitRead_nonpos (countingReader R) (s, c) N len h]
      simpa using ih

/-- Claim C5, witness: budget 1 over a two-byte source, two reads of five. -/
theorem limitedReader_budget_witness :
    byteReader.Honest ∧
    (runReads (limitReader byteReader) ([9, 9], 1) [5, 5]).2 ≤ (1 : Int).toNat ∧
    ((-2 : Int) ≤ 0 →
      (limitReader (countingReader byteReader)).read (([9], 4), -2) 3 =
        ((([9], 4), -2), [], some Err.EOF)) :=
  ⟨byteReader_honest,
   (limitedReader_budget byteReader byteReader_honest).1 [9, 9] 1 [5, 5],
   (limitedReader_budget byteReader byteReader_honest).2.1 [9] 4 (-2) 3⟩

theorem readAtLeastLoop_exit (R : Reader σ) (bufLen min : Nat) :
    ∀ (fuel : Nat) (s : σ) (n0 : Nat) (e0 : Option Err) (s' : σ) (n : Nat)
      (e : Option Err),
      readAtLeastLoop R bufLen min fuel s n0 e0 = some (s', n, e) →
      min ≤ n ∨ e ≠ none := by
  intro fuel
  induction fuel with
  | zero =>
    intro s n0 e0 s' n e h
    simp [readAtLeastLoop] at h
  | succ fuel ih =>
    intro s n0 e0 s' n e h
    rw [readAtLeastLoop] at h
    by_cases hc : n0 < min ∧ e0 = none
    · rw [if_pos hc] at h
      exact ih _ _ _ _ _ _ h
    · rw [if_neg hc] at h
      simp only [Option.some.injEq, Prod.mk.injEq] at h
      obtain ⟨-, h2, h3⟩ := h
      subst h2; subst h3
      rcases not_and_or.mp hc with h4 | h4
      · exact Or.inl (by omega)
      · exact Or.inr h4

theorem readAtLeastLoop_le (R : Reader σ) (hR : R.Honest) (bufLen min : Nat) :
    ∀ (fuel : Nat) (s : σ) (n0 : Nat) (e0 : Option Err) (s' : σ) (n : Nat)
      (e : Option Err),
      n0 ≤ bufLen →
      readAtLeastLoop R bufLen min fuel s n0 e0 = some (s', n, e) →
      n ≤ bufLen := by
  intro fuel
  induction fuel with
  | zero =>
    intro s n0 e0 s' n e _ h
    simp [readAtLeastLoop] at h
  | succ fuel ih =>
    intro s n0 e0 s' n e hn0 h
    rw [readAtLeastLoop] at h
    by_cases hc : n0 < min ∧ e0 = none
    · rw [if_pos hc] at h
      have hd : (R.read s (bufLen - n0)).2.1.length ≤ bufLen - n0 := hR s _
      exact ih _ _ _ _ _ _ (by omega) h
    · rw [if_neg hc] at h
      simp only [Option.some.injEq, Prod.mk.injEq] at h
      obtain ⟨-, h2, -⟩ := h
      omega

/-- Claim C4: for an honest reader, `ReadFull` (when its loop terminates)
fills the buffer completely exactly when it reports no error. -/
theorem readFull_full_iff (R : Reader σ) (hR : R.Honest) (bufLen fuel : Nat)
    (s : σ) (n : Nat) (e : Option Err)
    (h : ReadFull R bufLen fuel s = some (n, e)) :
    n = bufLen ↔ e = none := by
  unfold ReadFull ReadAtLeast at h
  rw [if_neg (lt_irrefl bufLen)] at h
  cases hl : readAtLeastLoop R bufLen bufLen fuel s 0 none with
  | none => rw [hl] at h; simp at h
  | some t =>
    obtain ⟨s', n', e'⟩ := t
    rw [hl] at h
    dsimp only at h
    have hle := readAtLeastLoop_le R hR bufLen bufLen fuel s 0 none
      s' n' e' (Nat.zero_le _) hl
    have hex := readAtLeastLoop_exit R bufLen bufLen fuel s 0 none s' n' e' hl
    by_cases h1 : n' ≥ bufLen
    · rw [if_pos h1] at h
      simp only [Option.some.injEq, Prod.mk.injEq] at h
      obtain ⟨h2, h3⟩ := h
      subst h2; subst h3
      simp only [iff_true]
      omega
    · rw [if_neg h1] at h
      by_cases h2 : 0 < n' ∧ e' = some Err.EOF
      · rw [if_pos h2] at h
        simp only [Option.some.injEq, Prod.mk.injEq] at h
        obtain ⟨h3, h4⟩ := h
        subst h3; subst h4
        constructor
        · intro h5; omega
        · intro h5; simp at h5
      · rw [if_neg h2] at h
        simp only [Option.some.injEq, Prod.mk.injEq] at h
        obtain ⟨h3, h4⟩ := h
        subst h3; subst h4
        have h5 : e' ≠ none := by
          rcases hex with h6 | h6
          · omega
          · exact h6
        constructor
        · intro h6; omega
        · intro h6; exact absurd h6 h5

/-- Claim C4, witness: a four-byte buffer filled from a six-byte source. -/
theorem readFull_full_iff_witness :
    byteReader.Honest ∧
    ReadFull byteReader 4 9 [1, 2, 3, 4, 5, 6] = some (4, none) ∧
    (4 = 4 ↔ (none : Option Err) = none) :=
  ⟨byteReader_honest, by decide,
   readFull_full_iff byteReader byteReader_honest 4 9 [1, 2, 3, 4, 5, 6] 4 none
     (by decide)⟩

theorem writeFix_le (nr : Nat) (nw0 : Int) (ew0 : Option Err) :
    0 ≤ (writeFix nr nw0 ew0).1 ∧ (writeFix nr nw0 ew0).1 ≤ nr := by
  unfold writeFix
  split_ifs with h h2 <;> simp <;> omega

theorem copyLoop_limited_le (R : Reader σr) (W : Writer σw) (hR : R.Honest)
    (bufLen : Nat) :
    ∀ (fuel : Nat) (s : σr) (N : Int) (sw : σw) (w w' : Int) (e : Option Err),
      copyLoop (limitReader R) W bufLen fuel (s, N) sw w = some (w', e) →
      w' ≤ w + N.toNat := by
  intro fuel
  induction fuel with
  | zero =>
    intro s N sw w w' e h
    simp [copyLoop] at h
  | succ fuel ih =>
    intro s N sw w w' e h
    simp only [copyLoop] at h
    by_cases hN : N ≤ 0
    · rw [limitRead_nonpos R s N bufLen hN] at h
      simp at h
      obtain ⟨h1, h2⟩ := h
      omega
    · rw [limitRead_pos R s N bufLen hN] at h
      dsimp only at h
      have hd : (R.read s (if (bufLen : Int) > N then N.toNat else bufLen)).2.1.length ≤
          (if (bufLen : Int) > N then N.toNat else bufLen) := hR s _
      have hdN : ((R.read s (if (bufLen : Int) > N then N.toNat
          else bufLen)).2.1.length : Int) ≤ N := by
        by_cases hc : (bufLen : Int) > N
        · rw [if_pos hc] at hd ⊢; omega
        · rw [if_neg hc] at hd ⊢; push_neg at hc; omega
      generalize hre : R.read s (if (bufLen : Int) > N then N.toNat else bufLen) = rr
        at h hdN
      obtain ⟨s2, d, er⟩ := rr
      dsimp only at h hdN
      by_cases hd0 : 0 < d.length
      · rw [if_pos hd0] at h
        generalize hwr : W.write sw d = ww at h
        obtain ⟨sw2, nw0, ew0⟩ := ww
        dsimp only at h
        have hfix := writeFix_le d.length nw0 ew0
        generalize hf : writeFix d.length nw0 ew0 = f at h hfix
        obtain ⟨nw, ew⟩ := f
        dsimp only at h hfix
        obtain ⟨hf0, hf1⟩ := hfix
        by_cases hew : ew ≠ none
        · rw [if_pos hew] at h
          simp only [Option.some.injEq, Prod.mk.injEq] at h
          obtain ⟨h1, h2⟩ := h
          omega
        · rw [if_neg hew] at h
          by_cases hnd : (d.length : Int) ≠ nw
          · rw [if_pos hnd] at h
            simp only [Option.some.injEq, Prod.mk.injEq] at h
            obtain ⟨h1, h2⟩ := h
            omega
          · rw [if_neg hnd] at h
            push_neg at hnd
            by_cases her : er ≠ none
            · rw [if_pos her] at h
              simp only [Option.some.injEq, Prod.mk.injEq] at h
              obtain ⟨h1, h2⟩ := h
              omega
            · rw [if_neg her] at h
              have := ih _ _ _ _ _ _ h
              omega
      · rw [if_neg hd0] at h
        by_cases her : er ≠ none
        · rw [if_pos her] at h
          simp only [Option.some.injEq, Prod.mk.injEq] at h
          obtain ⟨h1, h2⟩ := h
          omega
        · rw [if_neg her] at h
          have h0 : d.length = 0 := by omega
          rw [h0] at h
          simp only [Nat.cast_zero, sub_zero] at h
          have := ih _ _ _ _ _ _ h
          omega

/-- Claim C1: for an honest source and an honest destination, whenever
`CopyN(dst, src, n)` with `n >= 0` returns, the count it reports equals `n`
exactly when its error is nil. -/
theorem copyN_written_iff (R : Reader σr) (W : Writer σw) (hR : R.Honest)
    (hW : W.Honest) (n : Int) (hn : 0 ≤ n) (fuel : Nat) (sr : σr) (sw : σw)
    (w : Int) (e : Option Err)
    (h : CopyN R W n fuel sr sw = some (w, e)) :
    w = n ↔ e = none := by
  unfold CopyN at h
  cases hl : copyLimited R W n fuel sr sw with
  | none => rw [hl] at h; simp at h
  | some t =>
    obtain ⟨w0, e0⟩ := t
    have hb : w0 ≤ n := by
      have := copyLoop_limited_le R W hR (copyBufSize n) fuel sr n sw 0 w0 e0 hl
      omega
    rw [hl] at h
    dsimp only at h
    by_cases h1 : w0 = n
    · rw [if_pos h1] at h
      simp only [Option.some.injEq, Prod.mk.injEq] at h
      obtain ⟨h2, h3⟩ := h
      subst h2; subst h3
      simp
    · rw [if_neg h1] at h
      by_cases h2 : w0 < n ∧ e0 = none
      · rw [if_pos h2] at h
        simp only [Option.some.injEq, Prod.mk.injEq] at h
        obtain ⟨h3, h4⟩ := h
        subst h3; subst h4
        constructor
        · intro h5; omega
        · intro h5; simp at h5
      · rw [if_neg h2] at h
        simp only [Option.some.injEq, Prod.mk.injEq] at h
        obtain ⟨h3, h4⟩ := h
        subst h3; subst h4
        have h5 : e0 ≠ none := fun hc => h2 ⟨by omega, hc⟩
        constructor
        · intro h6; exact absurd h6 h1
        · intro h6; exact absurd h6 h5

/-- Claim C1, witness: three bytes copied with `n = 3` give `(3, nil)`. -/
theorem copyN_written_iff_witness :
    byteReader.Honest ∧ accWriter.Honest ∧ (0 : Int) ≤ 3 ∧
    CopyN byteReader accWriter 3 5 [0, 1, 2] [] = some (3, none) ∧
    ((3 : Int) = 3 ↔ (none : Option Err) = none) :=
  ⟨byteReader_honest, accWriter_honest, by decide, by decide,
   copyN_written_iff byteReader accWriter byteReader_honest accWriter_honest 3
     (by decide) 5 [0, 1, 2] [] 3 none (by decide)⟩

/-- Claim C8 (amended): on every tee read that produced bytes, the full
slice read is handed to the side writer before the call returns (the
instrumented write log grows by exactly that slice); a side-write error is
reported as the read call's error, but the call then returns the side
writer's count (the inner `n, err :=` in the source shadows the read's
pair) rather than the read's; when the side write reports no error, the
read's bytes and error are returned unchanged.  A read that produced no
bytes skips the side writer entirely. -/
theorem teeRead_spec (R : Reader σr) (W : Writer σw) (s : σr) (sw : σw)
    (log : List (List Nat)) (len : Nat) :
    (0 < (R.read s len).2.1.length →
      (teeRead R (recWriter W) (s, (sw, log)) len).1.2.2 =
        log ++ [(R.read s len).2.1] ∧
      ((W.write sw (R.read s len).2.1).2.2 ≠ none →
        (teeRead R (recWriter W) (s, (sw, log)) len).2 =
          ((R.read s len).2.1.take (W.write sw (R.read s len).2.1).2.1.toNat,
           (W.write sw (R.read s len).2.1).2.2)) ∧
      ((W.write sw (R.read s len).2.1).2.2 = none →
        (teeRead R (recWriter W) (s, (sw, log)) len).2 =
          ((R.read s len).2.1, (R.read s len).2.2))) ∧
    ((R.read s len).2.1.length = 0 →
      teeRead R (recWriter W) (s, (sw, log)) len =
        (((R.read s len).1, (sw, log)), (R.read s len).2.1, (R.read s len).2.2)) := by
  constructor
  · intro h0
    refine ⟨?_, ?_, ?_⟩
    · simp only [teeRead, recWriter]
      rw [if_pos h0]
      by_cases hew : (W.write sw (R.read s len).2.1).2.2 ≠ none
      · rw [if_pos hew]
      · rw [if_neg hew]
    · intro hew
      simp only [teeRead, recWriter]
      rw [if_pos h0, if_pos hew]
    · intro hew
      simp only [teeRead, recWriter]
      rw [if_pos h0, if_neg (not_not_intro hew)]
  · intro h0
    simp only [teeRead, recWriter]
    rw [if_neg (by omega)]

/-- Claim C8 (amended), witness: a three-byte read through a failing side
writer that reports one byte, and through a successful one. -/
theorem teeRead_spec_witness :
    (0 < (threeReader.read () 3).2.1.length →
      (teeRead threeReader (recWriter oneFailWriter) ((), ((), [])) 3).1.2.2 =
        [] ++ [(threeReader.read () 3).2.1] ∧
      ((oneFailWriter.write () (threeReader.read () 3).2.1).2.2 ≠ none →
        (teeRead threeReader (recWriter oneFailWriter) ((), ((), [])) 3).2 =
          ((threeReader.read () 3).2.1.take
            (oneFailWriter.write () (threeReader.read () 3).2.1).2.1.toNat,
           (oneFailWriter.write () (threeReader.read () 3).2.1).2.2)) ∧
      ((oneFailWriter.write () (threeReader.read () 3).2.1).2.2 = none →
        (teeRead threeReader (recWriter oneFailWriter) ((), ((), [])) 3).2 =
          ((threeReader.read () 3).2.1, (threeReader.read () 3).2.2))) ∧
    ((threeReader.read () 3).2.1.length = 0 →
      teeRead threeReader (recWriter oneFailWriter) ((), ((), [])) 3 =
        (((threeReader.read () 3).1, ((), [])), (threeReader.read () 3).2.1,
         (threeReader.read () 3).2.2)) :=
  teeRead_spec threeReader oneFailWriter () () [] 3

/-- Claim C8, counterexample to the claim as stated: the underlying read
returns three bytes, but when the side writer fails after reporting one
byte, the tee read's returned count is the side writer's 1, not the read's
3. -/
theorem teeRead_count_cex :
    (threeReader.read () 3).2.1.length = 3 ∧
    (teeRead threeReader oneFailWriter ((), ()) 3).2.1.length = 1 ∧
    (teeRead threeReader oneFailWriter ((), ()) 3).2.2 = some (Err.other 0) ∧
    (1 : Nat) ≠ 3 := by
  refine ⟨by decide, by decide, by decide, by decide⟩

theorem mkLimit_bounds (off n : Int) (h1 : -9223372036854775808 ≤ off)
    (h2 : off ≤ maxint64) (h3 : 0 ≤ n) (h4 : n ≤ maxint64) :
    off ≤ mkLimit off n ∧ mkLimit off n ≤ maxint64 ∧
    mkLimit off n - off ≤ maxint64 ∧ mkLimit off n ≤ off + n := by
  have hml : wrap64 (maxint64 - n) = maxint64 - n := by
    apply wrap64_eq_self <;> simp only [maxint64] at h3 h4 ⊢ <;> omega
  unfold mkLimit
  rw [hml]
  by_cases hc : off ≤ maxint64 - n
  · rw [if_pos hc]
    have hw : wrap64 (n + off) = n + off := by
      apply wrap64_eq_self <;> simp only [maxint64] at h1 h2 h3 h4 hc ⊢ <;> omega
    rw [hw]
    simp only [maxint64] at h1 h2 h3 h4 hc ⊢
    omega
  · rw [if_neg hc]
    simp only [maxint64] at h1 h2 h3 h4 hc ⊢
    omega

/-- The mutable part of the section-reader invariant: immutable bounds and
a cursor that never drops below the base. -/
def SRInv (base limit : Int) (st : SRSt σ) : Prop :=
  st.base = base ∧ st.limit = limit ∧ base ≤ st.off

theorem srSeekP_ge (base cur limit offset : Int) (whence : Nat)
    (h : base ≤ cur) :
    base ≤ (srSeekP base cur limit offset whence).1 := by
  unfold srSeekP seekTo
  split_ifs <;> omega

theorem srStep_inv (ra : ReaderAt σ) (hra : ra.Honest) (base limit : Int)
    (hsec : SecOk base limit) (st : SRSt σ) (hst : SRInv base limit st)
    (op : SROp) :
    SRInv base limit (srStep ra st op).1 ∧
    ∀ q ∈ (srStep ra st op).2, base ≤ q.1 ∧ (q.1 + q.2 : Int) ≤ limit := by
  obtain ⟨hb, hl, ho⟩ := hst
  subst hb; subst hl
  obtain ⟨hs1, hs2, hs3, hs4⟩ := hsec
  simp only [maxint64] at hs3 hs4
  cases op with
  | read len =>
    simp only [srStep, srRead]
    by_cases hge : st.off ≥ st.limit
    · rw [if_pos hge]
      exact ⟨⟨rfl, rfl, ho⟩, by simp⟩
    · rw [if_neg hge]
      push_neg at hge
      have hw : wrap64 (st.limit - st.off) = st.limit - st.off := by
        apply wrap64_eq_self <;> omega
      rw [hw]
      have hd := hra st.s (if (len : Int) > st.limit - st.off
        then (st.limit - st.off).toNat else len) st.off
      have hdle : ((ra.readAt st.s (if (len : Int) > st.limit - st.off
          then (st.limit - st.off).toNat else len) st.off).2.1.length : Int) ≤
          st.limit - st.off := by
        obtain ⟨hd1, -⟩ := hd
        by_cases hc : (len : Int) > st.limit - st.off
        · rw [if_pos hc] at hd1 ⊢; omega
        · rw [if_neg hc] at hd1 ⊢; push_neg at hc; omega
      have hw2 : wrap64 (st.off + ((ra.readAt st.s (if (len : Int) > st.limit - st.off
          then (st.limit - st.off).toNat else len) st.off).2.1.length : Int)) =
          st.off + ((ra.readAt st.s (if (len : Int) > st.limit - st.off
          then (st.limit - st.off).toNat else len) st.off).2.1.length : Int) := by
        apply wrap64_eq_self <;> omega
      constructor
      · refine ⟨rfl, rfl, ?_⟩
        dsimp only
        rw [hw2]
        omega
      · intro q hq
        dsimp only at hq
        simp only [List.mem_singleton] at hq
        subst hq
        refine ⟨ho, ?_⟩
        dsimp only
        by_cases hc : (len : Int) > st.limit - st.off
        · rw [if_pos hc]; omega
        · rw [if_neg hc]; push_neg at hc; omega
  | seekOp offset whence =>
    simp only [srStep, srSeek]
    refine ⟨⟨rfl, rfl, ?_⟩, by simp⟩
    dsimp only
    have := srSeekP_ge st.base st.off st.limit offset whence ho
    omega
  | readAt len qoff =>
    simp only [srStep, srReadAt]
    by_cases hrej : qoff < 0 ∨ qoff ≥ wrap64 (st.limit - st.base)
    · rw [if_pos hrej]
      exact ⟨⟨rfl, rfl, ho⟩, by simp⟩
    · rw [if_neg hrej]
      push_neg at hrej
      obtain ⟨hq0, hq1⟩ := hrej
      have hwlb : wrap64 (st.limit - st.base) = st.limit - st.base := by
        apply wrap64_eq_self <;> omega
      rw [hwlb] at hq1
      have hw1 : wrap64 (qoff + st.base) = qoff + st.base := by
        apply wrap64_eq_self <;> omega
      rw [hw1]
      have hw2 : wrap64 (st.limit - (qoff + st.base)) = st.limit - (qoff + st.base) := by
        apply wrap64_eq_self <;> omega
      rw [hw2]
      by_cases hclip : (len : Int) > st.limit - (qoff + st.base)
      · rw [if_pos hclip]
        constructor
        · exact ⟨rfl, rfl, ho⟩
        · intro q hq
          dsimp only at hq
          simp only [List.mem_singleton] at hq
          subst hq
          constructor
          · dsimp only; omega
          · dsimp only; omega
      · rw [if_neg hclip]
        push_neg at hclip
        constructor
        · exact ⟨rfl, rfl, ho⟩
        · intro q hq
          dsimp only at hq
          simp only [List.mem_singleton] at hq
          subst hq
          constructor
          · dsimp only; omega
          · dsimp only; omega

theorem srRun_inv (ra : ReaderAt σ) (hra : ra.Honest) (base limit : Int)
    (hsec : SecOk base limit) :
    ∀ (ops : List SROp) (st : SRSt σ), SRInv base limit st →
      ∀ q ∈ (srRun ra st ops).2, base ≤ q.1 ∧ (q.1 + q.2 : Int) ≤ limit := by
  intro ops
  induction ops with
  | nil =>
    intro st _ q hq
    simp [srRun] at hq
  | cons op rest ih =>
    intro st hst q hq
    simp only [srRun] at hq
    rw [List.mem_append] at hq
    rcases hq with hq | hq
    · exact (srStep_inv ra hra base limit hsec st hst op).2 q hq
    · exact ih _ (srStep_inv ra hra base limit hsec st hst op).1 q hq

/-- Claim C6: a section reader built by `NewSectionReader(r, off, n)` with
in-range `off` and `0 <= n`, driven by an arbitrary sequence of `Read`,
`Seek` and `ReadAt` calls against an underlying reader honoring its length
contract, only ever issues positional reads whose byte ranges lie inside
`[off, off + n)`. -/
theorem sectionReader_reads_in_range (ra : ReaderAt σ) (hra : ra.Honest)
    (s0 : σ) (off n : Int) (h1 : -9223372036854775808 ≤ off)
    (h2 : off ≤ maxint64) (h3 : 0 ≤ n) (h4 : n ≤ maxint64) (ops : List SROp) :
    ∀ q ∈ (srRun ra (newSRSt s0 off n) ops).2,
      off ≤ q.1 ∧ (q.1 + q.2 : Int) ≤ off + n := by
  obtain ⟨hm1, hm2, hm3, hm4⟩ := mkLimit_bounds off n h1 h2 h3 h4
  intro q hq
  have hsec : SecOk off (mkLimit off n) := ⟨h1, hm1, hm2, hm3⟩
  have hinv : SRInv off (mkLimit off n) (newSRSt s0 off n) := ⟨rfl, rfl, le_refl _⟩
  have hrange := srRun_inv ra hra off (mkLimit off n) hsec ops (newSRSt s0 off n)
    hinv q hq
  exact ⟨hrange.1, by omega⟩

/-- Claim C6, witness: a section `[10, 13)` driven through a read, a seek
and a positional read. -/
theorem sectionReader_reads_in_range_witness :
    zeroReaderAt.Honest ∧
    (∀ q ∈ (srRun zeroReaderAt (newSRSt () 10 3)
        [SROp.read 5, SROp.seekOp 1 0, SROp.read 9, SROp.readAt 4 1]).2,
      10 ≤ q.1 ∧ (q.1 + q.2 : Int) ≤ 10 + 3) :=
  ⟨zeroReaderAt_honest,
   sectionReader_reads_in_range zeroReaderAt zeroReaderAt_honest () 10 3
     (by decide) (by decide) (by decide) (by decide)
     [SROp.read 5, SROp.seekOp 1 0, SROp.read 9, SROp.readAt 4 1]⟩

theorem countingReaderAt_honest (ra : ReaderAt σ) (hra : ra.Honest) :
    (countingReaderAt ra).Honest := by
  intro s len off
  obtain ⟨a, b⟩ := hra s.1 len off
  exact ⟨a, b⟩

/-- Claim C7: for a section reader built over `[off, off + n)` with `0 <= n`
and an underlying reader honoring the `ReadAt` contract, `ReadAt(p, q)`:
rejects a negative or out-of-section `q` with `(0 bytes, EOF)` leaving the
whole state — the invocation counter of the instrumented underlying reader
included — untouched; when the request crosses the section boundary it
issues exactly one positional read clipped to the section and forces the
result to carry an error, `EOF` whenever the underlying read had none; and
in every case a short read (fewer bytes than requested) carries a non-nil
error. -/
theorem sectionReader_readAt_spec (ra : ReaderAt σ) (hra : ra.Honest)
    (s0 : σ) (c0 : Nat) (off n : Int)
    (h1 : -9223372036854775808 ≤ off) (h2 : off ≤ maxint64)
    (h3 : 0 ≤ n) (h4 : n ≤ maxint64) (len : Nat) (q : Int) :
    ((q < 0 ∨ srSize (newSRSt ((s0, c0) : σ × Nat) off n) ≤ q) →
      srReadAt (countingReaderAt ra) (newSRSt (s0, c0) off n) len q =
        (newSRSt (s0, c0) off n, ([], some Err.EOF), [])) ∧
    (0 ≤ q → q < srSize (newSRSt s0 off n) →
      srSize (newSRSt s0 off n) - q < len →
      (srReadAt ra (newSRSt s0 off n) len q).2.2 =
        [(q + off, (srSize (newSRSt s0 off n) - q).toNat)] ∧
      (srReadAt ra (newSRSt s0 off n) len q).2.1.2 ≠ none ∧
      ((ra.readAt s0 ((srSize (newSRSt s0 off n) - q).toNat) (q + off)).2.2 =
          none →
        (srReadAt ra (newSRSt s0 off n) len q).2.1.2 = some Err.EOF)) ∧
    ((srReadAt ra (newSRSt s0 off n) len q).2.1.1.length < len →
      (srReadAt ra (newSRSt s0 off n) len q).2.1.2 ≠ none) := by
  obtain ⟨hm1, hm2, hm3, hm4⟩ := mkLimit_bounds off n h1 h2 h3 h4
  simp only [maxint64] at h2 h4 hm2 hm3
  have hsz : srSize (newSRSt s0 off n) = mkLimit off n - off := by
    show wrap64 (mkLimit off n - off) = mkLimit off n - off
    apply wrap64_eq_self <;> omega
  have hszc : srSize (newSRSt ((s0, c0) : σ × Nat) off n) = mkLimit off n - off := by
    show wrap64 (mkLimit off n - off) = mkLimit off n - off
    apply wrap64_eq_self <;> omega
  have hwp : wrap64 ((newSRSt s0 off n).limit - (newSRSt s0 off n).base) =
      mkLimit off n - off := by
    show wrap64 (mkLimit off n - off) = mkLimit off n - off
    apply wrap64_eq_self <;> omega
  have hs : (newSRSt s0 off n).s = s0 := rfl
  refine ⟨?_, ?_, ?_⟩
  · intro hc
    rw [hszc] at hc
    have hg : q < 0 ∨ q ≥ wrap64 ((newSRSt ((s0, c0) : σ × Nat) off n).limit -
        (newSRSt ((s0, c0) : σ × Nat) off n).base) := by
      have hw : wrap64 ((newSRSt ((s0, c0) : σ × Nat) off n).limit -
          (newSRSt ((s0, c0) : σ × Nat) off n).base) = mkLimit off n - off := by
        show wrap64 (mkLimit off n - off) = mkLimit off n - off
        apply wrap64_eq_self <;> omega
      rw [hw]
      exact hc
    simp only [srReadAt]
    rw [if_pos hg]
  · intro hq0 hq1 hcross
    rw [hsz] at hq1 hcross ⊢
    simp only [srReadAt]
    have hng : ¬ (q < 0 ∨ q ≥ wrap64 ((newSRSt s0 off n).limit -
        (newSRSt s0 off n).base)) := by
      rw [hwp]; omega
    rw [if_neg hng]
    have hx : (newSRSt s0 off n).limit - wrap64 (q + (newSRSt s0 off n).base) =
        mkLimit off n - off - q := by
      have hq : wrap64 (q + (newSRSt s0 off n).base) = q + off := by
        show wrap64 (q + off) = q + off
        apply wrap64_eq_self <;> omega
      rw [hq]
      show mkLimit off n - (q + off) = mkLimit off n - off - q
      ring
    rw [hx]
    have hw2 : wrap64 (mkLimit off n - off - q) = mkLimit off n - off - q := by
      apply wrap64_eq_self <;> omega
    rw [hw2]
    rw [if_pos (show (len : Int) > mkLimit off n - off - q by omega)]
    have hq : wrap64 (q + (newSRSt s0 off n).base) = q + off := by
      show wrap64 (q + off) = q + off
      apply wrap64_eq_self <;> omega
    rw [hq]
    dsimp only
    rw [hs]
    refine ⟨rfl, ?_, ?_⟩
    · by_cases hu : (ra.readAt s0 (mkLimit off n - off - q).toNat (q + off)).2.2 =
          none
      · rw [if_pos hu]
        exact Option.some_ne_none _
      · rw [if_neg hu]
        exact hu
    · intro hu
      rw [if_pos hu]
  · intro hshort
    simp only [srReadAt] at hshort ⊢
    by_cases hg : q < 0 ∨ q ≥ wrap64 ((newSRSt s0 off n).limit -
        (newSRSt s0 off n).base)
    · rw [if_pos hg] at hshort ⊢
      exact Option.some_ne_none _
    · rw [if_neg hg] at hshort ⊢
      rw [hwp] at hg
      push_neg at hg
      obtain ⟨hg0, hg1⟩ := hg
      have hq : wrap64 (q + (newSRSt s0 off n).base) = q + off := by
        show wrap64 (q + off) = q + off
        apply wrap64_eq_self <;> omega
      rw [hq] at hshort ⊢
      have hx : (newSRSt s0 off n).limit - (q + off) = mkLimit off n - off - q := by
        show mkLimit off n - (q + off) = mkLimit off n - off - q
        ring
      rw [hx] at hshort ⊢
      have hw2 : wrap64 (mkLimit off n - off - q) = mkLimit off n - off - q := by
        apply wrap64_eq_self <;> omega
      rw [hw2] at hshort ⊢
      by_cases hclip : (len : Int) > mkLimit off n - off - q
      · rw [if_pos hclip] at hshort ⊢
        dsimp only
        rw [hs]
        by_cases hu : (ra.readAt s0 (mkLimit off n - off - q).toNat (q + off)).2.2 =
            none
        · rw [if_pos hu]
          exact Option.some_ne_none _
        · rw [if_neg hu]
          exact hu
      · rw [if_neg hclip] at hshort ⊢
        dsimp only at hshort ⊢
        rw [hs] at hshort ⊢
        exact (hra s0 len (q + off)).2 hshort

/-- Claim C7, witness: a section `[10, 13)`, a positional read of four bytes
at in-section offset 2 (crossing the boundary), and the rejection and
short-read clauses at that instance. -/
theorem sectionReader_readAt_spec_witness :
    zeroReaderAt.Honest ∧
    ((((2 : Int) < 0 ∨ srSize (newSRSt (((), 0) : Unit × Nat) 10 3) ≤ 2) →
      srReadAt (countingReaderAt zeroReaderAt) (newSRSt ((), 0) 10 3) 4 2 =
        (newSRSt ((), 0) 10 3, ([], some Err.EOF), [])) ∧
    ((0 : Int) ≤ 2 → (2 : Int) < srSize (newSRSt () 10 3) →
      srSize (newSRSt () 10 3) - 2 < 4 →
      (srReadAt zeroReaderAt (newSRSt () 10 3) 4 2).2.2 =
        [(2 + 10, (srSize (newSRSt () 10 3) - 2).toNat)] ∧
      (srReadAt zeroReaderAt (newSRSt () 10 3) 4 2).2.1.2 ≠ none ∧
      ((zeroReaderAt.readAt () ((srSize (newSRSt () 10 3) - 2).toNat)
          (2 + 10)).2.2 = none →
        (srReadAt zeroReaderAt (newSRSt () 10 3) 4 2).2.1.2 = some Err.EOF)) ∧
    ((srReadAt zeroReaderAt (newSRSt () 10 3) 4 2).2.1.1.length < 4 →
      (srReadAt zeroReaderAt (newSRSt () 10 3) 4 2).2.1.2 ≠ none)) :=
  ⟨zeroReaderAt_honest,
   sectionReader_readAt_spec zeroReaderAt zeroReaderAt_honest () 0 10 3
     (by decide) (by decide) (by decide) (by decide) 4 2⟩

end GoIoModel
